import Mathlib

/-!
Shallow embedding of the PII Detection & Redaction Engine of
`src/services/pii-scanner.ts` (class `PIIScanner`), together with proofs of
the specified properties.

Modelling conventions:
* JS strings are `List Char`, one element per UTF-16 code unit;
  `String.prototype.slice` and `RegExpExecArray.index` count the same units.
* `String.prototype.toLowerCase` is modelled per character by `Char.toLower`
  (it lowers exactly the ASCII letters A-Z; all values handled by the source
  are ASCII).
* JS `Map<string, AllowlistEntry>` is an insertion-ordered association list.
* Confidence values (0.7 .. 0.95 in the pattern catalog) are scaled by 100 to
  naturals (70 .. 95); the source only ever compares these fixed literals.
* `Date` values are epoch-millisecond naturals.
-/

namespace PII

/-- `value.toLowerCase()` applied to a code-unit list. -/
def lowerStr (s : List Char) : List Char := s.map Char.toLower

/-- `String.prototype.trim`: drop leading and trailing whitespace. -/
def trimChars (s : List Char) : List Char :=
  ((s.dropWhile Char.isWhitespace).reverse.dropWhile Char.isWhitespace).reverse

/-- The key normalization `value.toLowerCase().trim()` used by every
allowlist operation (`addToAllowlist`, `removeFromAllowlist`,
`getAllowlistEntry`, `setAllowlistEntries`, `isAllowlisted`). -/
def normalizeValue (v : List Char) : List Char := trimChars (lowerStr v)

/-- `content.slice(a, b)` for `0 ≤ a ≤ b` (the only way the source calls it). -/
def sliceStr (s : List Char) (a b : Nat) : List Char := (s.take b).drop a

/-- The `PIIType` union: `'phone' | 'address' | 'ssn' | 'email' | 'dob' | 'financial'`. -/
inductive PIIType where
  | phone | address | ssn | email | dob | financial
deriving DecidableEq, Repr

/-- A `{ start, end }` position (half-open span). `end` is a Lean keyword,
so the field is called `stop`. -/
structure Span where
  start : Nat
  stop : Nat
deriving DecidableEq, Repr

/-- A detected PII item (interface `PIIItem`). -/
structure PIIItem where
  type : PIIType
  value : List Char
  position : Span
  confidence : Nat
deriving DecidableEq, Repr

/-- Risk levels `'none' | 'low' | 'medium' | 'high'`. -/
inductive RiskLevel where
  | none | low | medium | high
deriving DecidableEq, Repr

/-- Result of a scan (interface `PIIScanResult`). -/
structure PIIScanResult where
  hasPII : Bool
  items : List PIIItem
  riskLevel : RiskLevel
  requiresReview : Bool
deriving DecidableEq, Repr

/-- An allowlist entry (interface `AllowlistEntry`); `addedAt` in epoch ms. -/
structure AllowlistEntry where
  value : List Char
  type : Option PIIType
  reason : Option (List Char)
  addedAt : Nat
deriving DecidableEq, Repr

/-- The scanner's `Map<string, AllowlistEntry>`: an insertion-ordered
association list with unique keys maintained by `mapSet`. -/
abbrev AllowMap := List (List Char × AllowlistEntry)

/-- `Map.prototype.set`: update in place if the key exists (keeping its
insertion position), otherwise append. -/
def mapSet (m : AllowMap) (k : List Char) (v : AllowlistEntry) : AllowMap :=
  match m with
  | [] => [(k, v)]
  | (k', v') :: rest => if k' = k then (k, v) :: rest else (k', v') :: mapSet rest k v

/-- `Map.prototype.delete`: remove the (first) binding of the key. -/
def mapDelete (m : AllowMap) (k : List Char) : AllowMap :=
  match m with
  | [] => []
  | (k', v') :: rest => if k' = k then rest else (k', v') :: mapDelete rest k

/-- `Map.prototype.has`. -/
def mapHas (m : AllowMap) (k : List Char) : Bool :=
  m.any (fun p => p.1 == k)

/-- `Map.prototype.get`. -/
def mapGet (m : AllowMap) (k : List Char) : Option AllowlistEntry :=
  (m.find? (fun p => p.1 == k)).map Prod.snd

/-- Mutable state of a `PIIScanner` instance. -/
structure ScannerState where
  allowlist : AllowMap
  allowlistPath : Option (List Char)
deriving DecidableEq, Repr

/-- `new PIIScanner()` (no allowlist path). -/
def freshScanner : ScannerState := ⟨[], Option.none⟩

/-- `PIIScanner.addToAllowlist(value, type?, reason?)`; `now` models `new Date()`. -/
def addToAllowlist (m : AllowMap) (value : List Char) (type : Option PIIType)
    (reason : Option (List Char)) (now : Nat) : AllowMap :=
  let normalizedValue := normalizeValue value
  mapSet m normalizedValue ⟨normalizedValue, type, reason, now⟩

/-- `PIIScanner.removeFromAllowlist(value)`. -/
def removeFromAllowlist (m : AllowMap) (value : List Char) : AllowMap :=
  mapDelete m (normalizeValue value)

/-- `PIIScanner.clearAllowlist()`. -/
def clearAllowlist (_ : AllowMap) : AllowMap := []

/-- `PIIScanner.getAllowlist()`: the keys. -/
def getAllowlist (m : AllowMap) : List (List Char) := m.map Prod.fst

/-- `PIIScanner.getAllowlistEntries()`: the values. -/
def getAllowlistEntries (m : AllowMap) : List AllowlistEntry := m.map Prod.snd

/-- `PIIScanner.getAllowlistEntry(value)`. -/
def getAllowlistEntry (m : AllowMap) (value : List Char) : Option AllowlistEntry :=
  mapGet m (normalizeValue value)

/-- `PIIScanner.setAllowlist(values)`: clear, then `addToAllowlist` each value. -/
def setAllowlist (_ : AllowMap) (values : List (List Char)) (now : Nat) : AllowMap :=
  values.foldl (fun acc v => addToAllowlist acc v Option.none Option.none now) []

/-- `PIIScanner.setAllowlistEntries(entries)`: clear, then re-normalize and
insert every entry.  The `addedAt` coercion (`entry.addedAt instanceof Date ?
entry.addedAt : new Date(entry.addedAt)`) is the identity on epoch-ms
timestamps, so it is modelled as the identity. -/
def setAllowlistEntries (_ : AllowMap) (entries : List AllowlistEntry) : AllowMap :=
  entries.foldl
    (fun acc e => mapSet acc (normalizeValue e.value) { e with value := normalizeValue e.value })
    []

/-- `PIIScanner.isAllowlisted(value)`. -/
def isAllowlisted (m : AllowMap) (value : List Char) : Bool :=
  mapHas m (normalizeValue value)

/-- `const highRiskTypes: PIIType[] = ['ssn', 'financial']`. -/
def highRiskTypes : List PIIType := [.ssn, .financial]

/-- `const mediumRiskTypes: PIIType[] = ['address', 'dob']`. -/
def mediumRiskTypes : List PIIType := [.address, .dob]

/-- `const lowRiskTypes: PIIType[] = ['phone', 'email']`. -/
def lowRiskTypes : List PIIType := [.phone, .email]

/-- `PIIScanner.calculateRiskLevel(items)` (lines 563-594). -/
def calculateRiskLevel (items : List PIIItem) : RiskLevel :=
  if items.length = 0 then .none
  else
    let hasHighRisk := items.any (fun item => highRiskTypes.contains item.type)
    let hasMediumRisk := items.any (fun item => mediumRiskTypes.contains item.type)
    let hasLowRisk := items.any (fun item => lowRiskTypes.contains item.type)
    if hasHighRisk then .high
    else if hasMediumRisk then .medium
    else if hasLowRisk && 3 ≤ items.length then .medium
    else .low

/-- `PIIScanner.getRedactionPlaceholder(type)` (lines 602-612). -/
def getRedactionPlaceholder (type : PIIType) : List Char :=
  match type with
  | .phone => ("[PHONE REDACTED]").data
  | .address => ("[ADDRESS REDACTED]").data
  | .ssn => ("[SSN REDACTED]").data
  | .email => ("[EMAIL REDACTED]").data
  | .dob => ("[DOB REDACTED]").data
  | .financial => ("[FINANCIAL INFO REDACTED]").data

/-- One splice step of `redact`:
`redactedContent.slice(0, item.position.start) + placeholder +
redactedContent.slice(item.position.end)`. -/
def redactionSplice (content : List Char) (item : PIIItem) : List Char :=
  content.take item.position.start
    ++ getRedactionPlaceholder item.type
    ++ content.drop item.position.stop

/-- The comparator `(a, b) => b.position.start - a.position.start` of
`redact` as a relation: `a` may precede `b` iff `b.start ≤ a.start`.
`Array.prototype.sort` is stable, and `List.insertionSort` with this
relation is exactly the stable descending-by-start sort. -/
def descByStart (a b : PIIItem) : Prop := b.position.start ≤ a.position.start

instance : DecidableRel descByStart := fun a b =>
  inferInstanceAs (Decidable (b.position.start ≤ a.position.start))

instance : IsTotal PIIItem descByStart :=
  ⟨fun a b => Nat.le_total b.position.start a.position.start⟩

instance : IsTrans PIIItem descByStart :=
  ⟨fun _ _ _ h h' => Nat.le_trans h' h⟩

/-- `[...piiItems].sort((a, b) => b.position.start - a.position.start)`. -/
def sortByStartDesc (items : List PIIItem) : List PIIItem :=
  items.insertionSort descByStart

/-- The comparator `(a, b) => a.position.start - b.position.start` used to
sort scan results ascending by start (stable). -/
def ascByStart (a b : PIIItem) : Prop := a.position.start ≤ b.position.start

instance : DecidableRel ascByStart := fun a b =>
  inferInstanceAs (Decidable (a.position.start ≤ b.position.start))

instance : IsTotal PIIItem ascByStart :=
  ⟨fun a b => Nat.le_total a.position.start b.position.start⟩

instance : IsTrans PIIItem ascByStart :=
  ⟨fun _ _ _ h h' => Nat.le_trans h h'⟩

/-- `items.sort((a, b) => a.position.start - b.position.start)`. -/
def sortByStartAsc (items : List PIIItem) : List PIIItem :=
  items.insertionSort ascByStart

/-- `PIIScanner.redact(content, piiItems)` (lines 348-367). -/
def redact (content : List Char) (piiItems : List PIIItem) : List Char :=
  if piiItems.length = 0 then content
  else (sortByStartDesc piiItems).foldl redactionSplice content

/-- One raw regex hit of the matching phase of `scan`: `value = match[0]`,
`index = match.index`, and the matching rule's `type` and `confidence`. -/
structure RawHit where
  type : PIIType
  value : List Char
  index : Nat
  confidence : Nat
deriving DecidableEq, Repr

/-- `const end = start + value.length`. -/
def RawHit.stop (h : RawHit) : Nat := h.index + h.value.length

/-- The `PIIItem` pushed for a raw hit. -/
def mkItem (h : RawHit) : PIIItem :=
  ⟨h.type, h.value, ⟨h.index, h.stop⟩, h.confidence⟩

/-- The overlap test of `scan` (lines 288-293), checking a candidate span
`(start, stop)` against an accepted `item`:
`(start >= item.position.start && start < item.position.end) ||
 (end > item.position.start && end <= item.position.end) ||
 (start <= item.position.start && end >= item.position.end)`. -/
def overlapB (start stop : Nat) (item : PIIItem) : Bool :=
  (decide (item.position.start ≤ start) && decide (start < item.position.stop))
    || (decide (item.position.start < stop) && decide (stop ≤ item.position.stop))
    || (decide (start ≤ item.position.start) && decide (item.position.stop ≤ stop))

/-- Loop state of `scan`: the accepted `items` array and the
`seenPositions` set of `start-end` keys (keys are pairs, since the string
key `` `${start}-${end}` `` is injective on pairs of naturals). -/
structure ScanState where
  items : List PIIItem
  seen : List (Nat × Nat)
deriving DecidableEq, Repr

/-- The body of the `while ((match = ...exec(content)) !== null)` loop of
`scan` (lines 274-313) for one raw hit (`start` is `h.index`, `end` is
`h.stop`): skip if the position key was seen or the value is allowlisted;
find the first accepted item whose span overlaps; if found, either evict it
(strictly higher confidence) or skip; record the key and push the item.
`items.splice(items.indexOf(overlapping), 1)` removes exactly the found
element: it is the first element satisfying `overlapB`, so no earlier
element can be structurally equal to it, and `List.erase` removes it. -/
def processHit (allow : AllowMap) (st : ScanState) (h : RawHit) : ScanState :=
  if st.seen.contains (h.index, h.stop) || isAllowlisted allow h.value then st
  else
    match st.items.find? (overlapB h.index h.stop) with
    | some overlapping =>
      if overlapping.confidence < h.confidence then
        { items := (st.items.erase overlapping) ++ [mkItem h],
          seen := (h.index, h.stop) ::
            st.seen.erase (overlapping.position.start, overlapping.position.stop) }
      else st
    | none =>
      { items := st.items ++ [mkItem h], seen := (h.index, h.stop) :: st.seen }

/-- `PIIScanner.scan(content)` (lines 265-328), parameterised by the output
of its pattern-matching phase: `hits` is the sequence of raw regex matches
in discovery order (catalog order of `this.patterns`, and within one
pattern, ascending `exec` order).  The JS regex engine itself is the only
part of `scan` that is not embedded; everything after `match` is produced
(duplicate-position filtering, allowlist filtering, overlap resolution,
final sort, risk classification, flags) is embedded exactly. -/
def scan (hits : List RawHit) (allow : AllowMap) : PIIScanResult :=
  let st := hits.foldl (processHit allow) ⟨[], []⟩
  let sorted := sortByStartAsc st.items
  let hasPII := decide (0 < sorted.length)
  { hasPII := hasPII,
    items := sorted,
    riskLevel := calculateRiskLevel sorted,
    requiresReview := hasPII }

/-- A raw hit is well-formed for `content` when its value is exactly the
slice of `content` at its reported position — the contract of
`RegExpExecArray` (`match[0]` is the matched substring at `match.index`,
both measured in UTF-16 code units). -/
def WFHit (content : List Char) (h : RawHit) : Prop :=
  sliceStr content h.index h.stop = h.value

instance (content : List Char) (h : RawHit) : Decidable (WFHit content h) :=
  inferInstanceAs (Decidable (_ = _))

/-- A persisted allowlist document as produced by `JSON.parse` of the file
contents, shaped for the fields `loadAllowlist` inspects.  `version = none`
models an absent/null field and `version = some []` an empty string (both
falsy under `!config.version`); `entries = none` models a document whose
`entries` field is absent or not an array (`!Array.isArray(config.entries)`).
JSON serialization of `Date` values (ISO-8601 strings keep milliseconds) is
modelled as the identity on epoch-ms naturals. -/
structure RawDoc where
  version : Option (List Char)
  lastModified : Option Nat
  entries : Option (List AllowlistEntry)
deriving DecidableEq, Repr

/-- JS truthiness of the (string-typed) `version` field. -/
def versionTruthy : Option (List Char) → Bool
  | Option.none => false
  | Option.some s => !s.isEmpty

/-- `filePath || this.allowlistPath`: an empty string is falsy. -/
def jsOrPath (filePath configured : Option (List Char)) : Option (List Char) :=
  match filePath with
  | Option.none => configured
  | Option.some p => if p = [] then configured else Option.some p

/-- Errors thrown by allowlist persistence. -/
inductive PersistError where
  | noPath        -- `'No file path specified for allowlist persistence'`
  | invalidFormat -- `'Invalid allowlist file format'`
deriving DecidableEq, Repr

/-- `PIIScanner.saveAllowlist(filePath?)` (lines 480-498): resolve the target
path (configuration error if none), then write the
`{version: '1.0', lastModified: new Date(), entries: getAllowlistEntries()}`
envelope.  Directory creation and the file write are modelled by returning
the path and the document that is written there. -/
def saveAllowlist (st : ScannerState) (filePath : Option (List Char)) (now : Nat) :
    Except PersistError (List Char × RawDoc) :=
  match jsOrPath filePath st.allowlistPath with
  | Option.none => .error .noPath
  | Option.some targetPath =>
    .ok (targetPath,
      { version := Option.some ("1.0").data,
        lastModified := Option.some now,
        entries := Option.some (getAllowlistEntries st.allowlist) })

/-- `PIIScanner.loadAllowlist(filePath?)` (lines 508-527).  The filesystem is
a map from paths to parsed documents (`none` models `!fs.existsSync`).
Returns the call's outcome together with the scanner state after the call:
configuration error if no path resolves; `false` (state unchanged) if the
file does not exist; format error (state unchanged) if `!config.version ||
!Array.isArray(config.entries)`; otherwise replaces the allowlist via
`setAllowlistEntries` and returns `true`. -/
def loadAllowlist (st : ScannerState) (filePath : Option (List Char))
    (fsDocs : List Char → Option RawDoc) :
    Except PersistError Bool × ScannerState :=
  match jsOrPath filePath st.allowlistPath with
  | Option.none => (.error .noPath, st)
  | Option.some targetPath =>
    match fsDocs targetPath with
    | Option.none => (.ok false, st)
    | Option.some config =>
      match config.entries, versionTruthy config.version with
      | Option.some entries, true =>
        (.ok true, { st with allowlist := setAllowlistEntries st.allowlist entries })
      | _, _ => (.error .invalidFormat, st)

/-! ### Reference-level model of `redact` for the argument-aliasing claim

`redact` receives its `piiItems` argument by reference.  To make mutation
of the argument observable, arrays of items are modelled as references into
a heap; `[...piiItems]` allocates a fresh array and `Array.prototype.sort`
mutates its receiver in place. -/

/-- A heap of `PIIItem[]` arrays; a reference is an index. -/
structure ArrayHeap where
  arrays : List (List PIIItem)
deriving DecidableEq, Repr

/-- Dereference an array (out-of-range references read as `[]`). -/
def readArr (h : ArrayHeap) (r : Nat) : List PIIItem :=
  h.arrays.getD r []

/-- Overwrite the array behind a reference. -/
def writeArr (h : ArrayHeap) (r : Nat) (xs : List PIIItem) : ArrayHeap :=
  ⟨h.arrays.set r xs⟩

/-- Allocate a fresh array, returning the new heap and the fresh reference. -/
def allocArr (h : ArrayHeap) (xs : List PIIItem) : ArrayHeap × Nat :=
  (⟨h.arrays ++ [xs]⟩, h.arrays.length)

/-- `PIIScanner.redact` at the reference level: `piiItemsRef` is the caller's
array.  `[...piiItems]` allocates a copy, `.sort(...)` mutates only that
copy, and the splice loop reads the sorted copy. -/
def redactImp (h : ArrayHeap) (content : List Char) (piiItemsRef : Nat) :
    ArrayHeap × List Char :=
  let piiItems := readArr h piiItemsRef
  if piiItems.length = 0 then (h, content)
  else
    let alloc := allocArr h piiItems
    let h1 := alloc.1
    let copyRef := alloc.2
    let h2 := writeArr h1 copyRef (sortByStartDesc (readArr h1 copyRef))
    let sortedItems := readArr h2 copyRef
    (h2, sortedItems.foldl redactionSplice content)

/-! ### Normalization lemmas -/

theorem char_toNat_ofNat_valid (n : Nat) (h : n.isValidChar) : (Char.ofNat n).toNat = n := by
  simp [Char.ofNat, h, Char.ofNatAux, Char.toNat, UInt32.toNat, BitVec.toNat_ofNatLt]

theorem toLower_toLower (c : Char) : c.toLower.toLower = c.toLower := by
  unfold Char.toLower
  by_cases h : c.toNat ≥ 65 ∧ c.toNat ≤ 90
  · have hvalid : (c.toNat + 32).isValidChar := by
      left; omega
    have hv : (Char.ofNat (c.toNat + 32)).toNat = c.toNat + 32 :=
      char_toNat_ofNat_valid _ hvalid
    simp only [h, and_self, if_true]
    have h2 : ¬ ((Char.ofNat (c.toNat + 32)).toNat ≥ 65 ∧
        (Char.ofNat (c.toNat + 32)).toNat ≤ 90) := by
      rw [hv]; omega
    simp [h2]
  · simp [h]

theorem dropWhile_dropWhile {α : Type} (p : α → Bool) (l : List α) :
    (l.dropWhile p).dropWhile p = l.dropWhile p := by
  induction l with
  | nil => rfl
  | cons c l ih =>
    by_cases hc : p c
    · simpa [List.dropWhile, hc] using ih
    · simp [List.dropWhile, hc]

theorem dropWhile_append_single {α : Type} {p : α → Bool} {c : α}
    (hc : p c = false) (x : List α) :
    (x ++ [c]).dropWhile p = x.dropWhile p ++ [c] := by
  induction x with
  | nil => simp [List.dropWhile, hc]
  | cons d x ih =>
    by_cases hd : p d
    · simpa [List.dropWhile, hd] using ih
    · simp [List.dropWhile, hd]

theorem mem_of_mem_dropWhile {α : Type} {p : α → Bool} {c : α} {l : List α}
    (h : c ∈ l.dropWhile p) : c ∈ l := by
  induction l with
  | nil => simp [List.dropWhile] at h
  | cons d l ih =>
    by_cases hd : p d
    · simp only [List.dropWhile, hd] at h
      exact List.mem_cons_of_mem _ (ih h)
    · simpa [List.dropWhile, hd] using h

theorem mem_of_mem_trimChars {c : Char} {s : List Char}
    (h : c ∈ trimChars s) : c ∈ s := by
  unfold trimChars at h
  rw [List.mem_reverse] at h
  have h1 := mem_of_mem_dropWhile h
  rw [List.mem_reverse] at h1
  exact mem_of_mem_dropWhile h1

theorem lowerStr_fixed_of_mem {s : List Char}
    (h : ∀ c ∈ s, c.toLower = c) : lowerStr s = s := by
  induction s with
  | nil => rfl
  | cons c s ih =>
    simp only [lowerStr, List.map_cons]
    rw [h c (List.mem_cons_self c s)]
    have := ih (fun c hc => h c (List.mem_cons_of_mem _ hc))
    simpa [lowerStr] using this

theorem toLower_fixed_of_mem_lowerStr {c : Char} {v : List Char}
    (h : c ∈ lowerStr v) : c.toLower = c := by
  obtain ⟨d, _, rfl⟩ := List.mem_map.mp h
  exact toLower_toLower d

theorem lowerStr_trimChars_lowerStr (v : List Char) :
    lowerStr (trimChars (lowerStr v)) = trimChars (lowerStr v) :=
  lowerStr_fixed_of_mem fun _ hc =>
    toLower_fixed_of_mem_lowerStr (mem_of_mem_trimChars hc)

theorem dropWhile_trimChars (s : List Char) :
    (trimChars s).dropWhile Char.isWhitespace = trimChars s := by
  induction s with
  | nil => rfl
  | cons d s ih =>
    by_cases hd : Char.isWhitespace d
    · have heq : trimChars (d :: s) = trimChars s := by
        simp [trimChars, List.dropWhile_cons, hd]
      rw [heq]; exact ih
    · have hd' : Char.isWhitespace d = false := by simpa using hd
      have heq : trimChars (d :: s) =
          d :: ((s.reverse.dropWhile Char.isWhitespace).reverse) := by
        simp [trimChars, List.dropWhile_cons, hd', dropWhile_append_single hd']
      rw [heq]
      simp [List.dropWhile_cons, hd']

theorem trimChars_trimChars (s : List Char) :
    trimChars (trimChars s) = trimChars s := by
  conv_lhs => rw [trimChars, dropWhile_trimChars]
  rw [trimChars, List.reverse_reverse, dropWhile_dropWhile]

theorem normalizeValue_idem (v : List Char) :
    normalizeValue (normalizeValue v) = normalizeValue v := by
  unfold normalizeValue
  rw [lowerStr_trimChars_lowerStr, trimChars_trimChars]

/-! ### Allowlist map lemmas -/

theorem mapHas_mapSet_self (m : AllowMap) (k : List Char) (v : AllowlistEntry) :
    mapHas (mapSet m k v) k = true := by
  induction m with
  | nil => simp [mapSet, mapHas]
  | cons p m ih =>
    by_cases hk : p.1 = k
    · simp [mapSet, hk, mapHas]
    · simp only [mapSet, hk, if_false, mapHas, List.any_cons]
      rw [mapHas] at ih
      simp [ih]

/-- The stored-entry invariant of the allowlist map: every entry's `value`
equals the key it is stored under, and is normalized. -/
def AllowMapWF (m : AllowMap) : Prop :=
  ∀ p ∈ m, p.2.value = p.1 ∧ normalizeValue p.2.value = p.2.value

theorem AllowMapWF_nil : AllowMapWF [] := by
  intro p hp; cases hp

theorem AllowMapWF_mapSet {k : List Char} {v : AllowlistEntry}
    (hv : v.value = k) (hn : normalizeValue v.value = v.value) :
    ∀ {m : AllowMap}, AllowMapWF m → AllowMapWF (mapSet m k v) := by
  intro m
  induction m with
  | nil =>
    intro _ p hp
    rw [mapSet, List.mem_singleton] at hp
    subst hp; exact ⟨hv, hn⟩
  | cons q m ih =>
    intro hqm p hp
    have hq := hqm q (List.mem_cons_self q m)
    have hm' : AllowMapWF m := fun r hr => hqm r (List.mem_cons_of_mem q hr)
    by_cases hk : q.1 = k
    · rw [mapSet, if_pos hk] at hp
      cases List.mem_cons.mp hp with
      | inl h1 => subst h1; exact ⟨hv, hn⟩
      | inr h2 => exact hm' p h2
    · rw [mapSet, if_neg hk] at hp
      cases List.mem_cons.mp hp with
      | inl h1 => subst h1; exact hq
      | inr h2 => exact ih hm' p h2

theorem AllowMapWF_mapDelete (k : List Char) :
    ∀ {m : AllowMap}, AllowMapWF m → AllowMapWF (mapDelete m k) := by
  intro m
  induction m with
  | nil => intro _ p hp; cases hp
  | cons q m ih =>
    intro hqm p hp
    have hq := hqm q (List.mem_cons_self q m)
    have hm' : AllowMapWF m := fun r hr => hqm r (List.mem_cons_of_mem q hr)
    by_cases hk : q.1 = k
    · rw [mapDelete, if_pos hk] at hp
      exact hm' p hp
    · rw [mapDelete, if_neg hk] at hp
      cases List.mem_cons.mp hp with
      | inl h1 => subst h1; exact hq
      | inr h2 => exact ih hm' p h2

theorem AllowMapWF_setAllowlistEntries (m : AllowMap) (entries : List AllowlistEntry) :
    AllowMapWF (setAllowlistEntries m entries) := by
  unfold setAllowlistEntries
  suffices h : ∀ (acc : AllowMap), AllowMapWF acc →
      AllowMapWF (entries.foldl
        (fun acc e =>
          mapSet acc (normalizeValue e.value) { e with value := normalizeValue e.value }) acc) by
    exact h [] AllowMapWF_nil
  induction entries with
  | nil => intro acc hacc; exact hacc
  | cons e entries ih =>
    intro acc hacc
    exact ih _ (@AllowMapWF_mapSet (normalizeValue e.value)
      ⟨normalizeValue e.value, e.type, e.reason, e.addedAt⟩
      rfl (normalizeValue_idem e.value) acc hacc)

theorem AllowMapWF_addToAllowlist {m : AllowMap} (hm : AllowMapWF m)
    (value : List Char) (type : Option PIIType) (reason : Option (List Char)) (now : Nat) :
    AllowMapWF (addToAllowlist m value type reason now) :=
  @AllowMapWF_mapSet (normalizeValue value) ⟨normalizeValue value, type, reason, now⟩
    rfl (normalizeValue_idem value) m hm

theorem AllowMapWF_setAllowlist (m : AllowMap) (values : List (List Char)) (now : Nat) :
    AllowMapWF (setAllowlist m values now) := by
  unfold setAllowlist
  suffices h : ∀ (acc : AllowMap), AllowMapWF acc →
      AllowMapWF (values.foldl
        (fun acc v => addToAllowlist acc v Option.none Option.none now) acc) by
    exact h [] AllowMapWF_nil
  induction values with
  | nil => intro acc hacc; exact hacc
  | cons v values ih =>
    intro acc hacc
    exact ih _ (AllowMapWF_addToAllowlist hacc v _ _ now)

/-- **C8.** For all strings `v` and `v'` that agree up to trimming and
case folding (same normalized form), after `addToAllowlist(v)` both
`isAllowlisted(v)` and `isAllowlisted(v')` return `true` (hence are equal). -/
theorem c8_allowlist_normalization (m : AllowMap) (v v' : List Char)
    (type : Option PIIType) (reason : Option (List Char)) (now : Nat)
    (hsame : normalizeValue v' = normalizeValue v) :
    isAllowlisted (addToAllowlist m v type reason now) v = true ∧
    isAllowlisted (addToAllowlist m v type reason now) v' = true := by
  unfold isAllowlisted addToAllowlist
  refine ⟨mapHas_mapSet_self _ _ _, ?_⟩
  rw [hsame]
  exact mapHas_mapSet_self _ _ _

/-- Witness for C8 at `v = " John Smith "`, `v' = "JOHN SMITH"`. -/
theorem c8_allowlist_normalization_witness :
    normalizeValue ("JOHN SMITH").data = normalizeValue (" John Smith ").data ∧
    (isAllowlisted (addToAllowlist [] (" John Smith ").data Option.none Option.none 0)
        (" John Smith ").data = true ∧
      isAllowlisted (addToAllowlist [] (" John Smith ").data Option.none Option.none 0)
        ("JOHN SMITH").data = true) :=
  ⟨by decide,
    c8_allowlist_normalization [] (" John Smith ").data ("JOHN SMITH").data
      Option.none Option.none 0 (by decide)⟩

/-! ### Case analysis of `loadAllowlist` (shared helpers) -/

instance (m : AllowMap) : Decidable (AllowMapWF m) := by
  unfold AllowMapWF
  infer_instance

theorem loadAllowlist_no_path (m : AllowMap) (fsDocs : List Char → Option RawDoc) :
    loadAllowlist ⟨m, Option.none⟩ Option.none fsDocs =
      (.error .noPath, ⟨m, Option.none⟩) := rfl

theorem loadAllowlist_not_found (st : ScannerState) (p : List Char)
    (fsDocs : List Char → Option RawDoc) (hp : p ≠ [])
    (hfs : fsDocs p = Option.none) :
    loadAllowlist st (Option.some p) fsDocs = (.ok false, st) := by
  simp [loadAllowlist, jsOrPath, hp, hfs]

theorem loadAllowlist_bad_format (st : ScannerState) (p : List Char)
    (fsDocs : List Char → Option RawDoc) (config : RawDoc) (hp : p ≠ [])
    (hfs : fsDocs p = Option.some config)
    (hbad : versionTruthy config.version = false ∨ config.entries = Option.none) :
    loadAllowlist st (Option.some p) fsDocs = (.error .invalidFormat, st) := by
  simp only [loadAllowlist, jsOrPath, if_neg hp, hfs]
  cases hent : config.entries with
  | none => rfl
  | some entries =>
    cases hbad with
    | inl hver => simp [hver]
    | inr hent' => rw [hent'] at hent; cases hent

theorem loadAllowlist_success (st : ScannerState) (p : List Char)
    (fsDocs : List Char → Option RawDoc) (config : RawDoc)
    (entries : List AllowlistEntry) (hp : p ≠ [])
    (hfs : fsDocs p = Option.some config)
    (hver : versionTruthy config.version = true)
    (hent : config.entries = Option.some entries) :
    loadAllowlist st (Option.some p) fsDocs =
      (.ok true, { st with allowlist := setAllowlistEntries st.allowlist entries }) := by
  simp [loadAllowlist, jsOrPath, hp, hfs, hent, hver]

/-- **C10.** Every `AllowlistEntry` stored in the allowlist has a `value`
that is already normalized (lowercased and trimmed) and equal to the key it
is stored under, and this invariant is preserved by `addToAllowlist`,
`removeFromAllowlist`, `clearAllowlist`, `setAllowlist`,
`setAllowlistEntries` and `loadAllowlist`. -/
theorem c10_allowlist_invariant (m : AllowMap) (hm : AllowMapWF m) :
    (∀ value type reason now, AllowMapWF (addToAllowlist m value type reason now)) ∧
    (∀ value, AllowMapWF (removeFromAllowlist m value)) ∧
    AllowMapWF (clearAllowlist m) ∧
    (∀ values now, AllowMapWF (setAllowlist m values now)) ∧
    (∀ entries, AllowMapWF (setAllowlistEntries m entries)) ∧
    (∀ cfgPath filePath fsDocs,
      AllowMapWF ((loadAllowlist ⟨m, cfgPath⟩ filePath fsDocs).2.allowlist)) := by
  refine ⟨fun value type reason now => AllowMapWF_addToAllowlist hm value type reason now,
    fun value => AllowMapWF_mapDelete _ hm,
    AllowMapWF_nil,
    fun values now => AllowMapWF_setAllowlist m values now,
    fun entries => AllowMapWF_setAllowlistEntries m entries,
    fun cfgPath filePath fsDocs => ?_⟩
  unfold loadAllowlist
  cases jsOrPath filePath cfgPath with
  | none => exact hm
  | some targetPath =>
    dsimp only
    cases fsDocs targetPath with
    | none => exact hm
    | some config =>
      dsimp only
      cases config.entries with
      | none => exact hm
      | some entries =>
        cases versionTruthy config.version with
        | false => exact hm
        | true => exact AllowMapWF_setAllowlistEntries m entries

/-- Witness for C10 at a concrete well-formed one-entry allowlist. -/
theorem c10_allowlist_invariant_witness :
    AllowMapWF [(("a").data, ⟨("a").data, Option.some PIIType.email, Option.none, 7⟩)] ∧
    AllowMapWF (addToAllowlist
      [(("a").data, ⟨("a").data, Option.some PIIType.email, Option.none, 7⟩)]
      (" B ").data Option.none Option.none 9) :=
  ⟨by decide,
    (c10_allowlist_invariant _ (by decide)).1 (" B ").data Option.none Option.none 9⟩

/-- **C6.** `loadAllowlist` fails with the configuration error when no path
is given and none is configured; returns `false` (state unchanged) when the
file does not exist; fails with the format error (state unchanged, no
partial merge) when the document\'s `version` is falsy or its `entries` is
not a sequence; and otherwise replaces the allowlist with the document\'s
entries and returns `true`. -/
theorem c6_loadAllowlist_cases :
    (∀ (m : AllowMap) fsDocs,
      loadAllowlist ⟨m, Option.none⟩ Option.none fsDocs =
        (.error .noPath, ⟨m, Option.none⟩)) ∧
    (∀ (st : ScannerState) (p : List Char) fsDocs, p ≠ [] → fsDocs p = Option.none →
      loadAllowlist st (Option.some p) fsDocs = (.ok false, st)) ∧
    (∀ (st : ScannerState) (p : List Char) fsDocs (config : RawDoc), p ≠ [] →
      fsDocs p = Option.some config →
      (versionTruthy config.version = false ∨ config.entries = Option.none) →
      loadAllowlist st (Option.some p) fsDocs = (.error .invalidFormat, st)) ∧
    (∀ (st : ScannerState) (p : List Char) fsDocs (config : RawDoc) entries, p ≠ [] →
      fsDocs p = Option.some config →
      versionTruthy config.version = true → config.entries = Option.some entries →
      loadAllowlist st (Option.some p) fsDocs =
        (.ok true, { st with allowlist := setAllowlistEntries st.allowlist entries })) :=
  ⟨fun m fsDocs => loadAllowlist_no_path m fsDocs,
    fun st p fsDocs hp hfs => loadAllowlist_not_found st p fsDocs hp hfs,
    fun st p fsDocs config hp hfs hbad => loadAllowlist_bad_format st p fsDocs config hp hfs hbad,
    fun st p fsDocs config entries hp hfs hver hent =>
      loadAllowlist_success st p fsDocs config entries hp hfs hver hent⟩

/-- Witness for C6: the four outcomes at concrete inputs. -/
theorem c6_loadAllowlist_cases_witness :
    loadAllowlist ⟨[], Option.none⟩ Option.none (fun _ => Option.none) =
      (.error .noPath, ⟨[], Option.none⟩) ∧
    loadAllowlist freshScanner (Option.some ("f.json").data) (fun _ => Option.none) =
      (.ok false, freshScanner) ∧
    loadAllowlist freshScanner (Option.some ("f.json").data)
        (fun _ => Option.some ⟨Option.none, Option.none, Option.some []⟩) =
      (.error .invalidFormat, freshScanner) ∧
    loadAllowlist freshScanner (Option.some ("f.json").data)
        (fun _ => Option.some ⟨Option.some ("1.0").data, Option.none, Option.some []⟩) =
      (.ok true, { freshScanner with allowlist := setAllowlistEntries [] [] }) :=
  ⟨c6_loadAllowlist_cases.1 [] _,
    c6_loadAllowlist_cases.2.1 freshScanner ("f.json").data _ (by decide) rfl,
    c6_loadAllowlist_cases.2.2.1 freshScanner ("f.json").data _
      ⟨Option.none, Option.none, Option.some []⟩ (by decide) rfl (Or.inl rfl),
    c6_loadAllowlist_cases.2.2.2 freshScanner ("f.json").data _
      ⟨Option.some ("1.0").data, Option.none, Option.some []⟩ [] (by decide) rfl rfl rfl⟩

/-! ### Round-trip persistence -/

theorem mapSet_append_of_not_mem {k : List Char} :
    ∀ {m : AllowMap}, k ∉ m.map Prod.fst → ∀ (v : AllowlistEntry),
      mapSet m k v = m ++ [(k, v)] := by
  intro m
  induction m with
  | nil => intro _ v; rfl
  | cons q m ih =>
    intro hk v
    have hne : q.1 ≠ k := by
      intro h
      exact hk (by rw [List.map_cons, h]; exact List.mem_cons_self _ _)
    have hk' : k ∉ m.map Prod.fst := by
      intro h
      exact hk (List.mem_cons_of_mem _ h)
    simp only [mapSet, hne, if_false, List.cons_append, List.cons.injEq, true_and]
    exact ih hk' v

theorem setAllowlistEntries_getAllowlistEntries :
    ∀ {m : AllowMap}, AllowMapWF m → (m.map Prod.fst).Nodup → ∀ (x : AllowMap),
      setAllowlistEntries x (getAllowlistEntries m) = m := by
  suffices h : ∀ (m : AllowMap), AllowMapWF m → (m.map Prod.fst).Nodup →
      ∀ (acc : AllowMap), (∀ k ∈ m.map Prod.fst, k ∉ acc.map Prod.fst) →
      (m.map Prod.snd).foldl
        (fun acc e =>
          mapSet acc (normalizeValue e.value) { e with value := normalizeValue e.value })
        acc = acc ++ m by
    intro m hwf hnd x
    unfold setAllowlistEntries getAllowlistEntries
    simpa using h m hwf hnd [] (fun k _ => List.not_mem_nil k)
  intro m
  induction m with
  | nil => intro _ _ acc _; simp
  | cons q m ih =>
    intro hwf hnd acc hacc
    obtain ⟨hq1, hq2⟩ := hwf q (List.mem_cons_self q m)
    have hwf' : AllowMapWF m := fun r hr => hwf r (List.mem_cons_of_mem q hr)
    have hnd' : (m.map Prod.fst).Nodup := (List.nodup_cons.mp hnd).2
    have hq1' : q.1 ∉ m.map Prod.fst := (List.nodup_cons.mp hnd).1
    have heta : { q.2 with value := q.2.value } = q.2 := rfl
    have hstep : mapSet acc (normalizeValue q.2.value)
        { q.2 with value := normalizeValue q.2.value } = acc ++ [(q.1, q.2)] := by
      rw [hq2, heta, hq1]
      exact mapSet_append_of_not_mem (hacc q.1 (List.mem_cons_self _ _)) q.2
    have happ : ∀ k ∈ m.map Prod.fst, k ∉ (acc ++ [(q.1, q.2)]).map Prod.fst := by
      intro k hk
      simp only [List.map_append, List.mem_append, List.map_cons, List.map_nil,
        List.mem_singleton]
      rintro (h1 | h2)
      · exact hacc k (List.mem_cons_of_mem _ hk) h1
      · rw [h2] at hk
        exact hq1' hk
    calc ((q :: m).map Prod.snd).foldl
          (fun acc e =>
            mapSet acc (normalizeValue e.value) { e with value := normalizeValue e.value })
          acc
        = (m.map Prod.snd).foldl
            (fun acc e =>
              mapSet acc (normalizeValue e.value) { e with value := normalizeValue e.value })
            (acc ++ [(q.1, q.2)]) := by
          simp only [List.map_cons, List.foldl_cons, hstep]
      _ = (acc ++ [(q.1, q.2)]) ++ m := ih hwf' hnd' (acc ++ [(q.1, q.2)]) happ
      _ = acc ++ q :: m := by
          rw [List.append_assoc]
          rfl

/-- **C7.** Saving the allowlist and loading it into a fresh scanner
instance reproduces the allowlist exactly: the same keys (normalized
values), and for each entry the same `type`, `reason` and `addedAt`. -/
theorem c7_save_load_roundtrip (st : ScannerState) (p : List Char) (now : Nat)
    (hp : p ≠ []) (hwf : AllowMapWF st.allowlist)
    (hnd : (st.allowlist.map Prod.fst).Nodup) :
    saveAllowlist st (Option.some p) now =
      .ok (p, ⟨Option.some ("1.0").data, Option.some now,
        Option.some (getAllowlistEntries st.allowlist)⟩) ∧
    loadAllowlist freshScanner (Option.some p)
        (fun q => if q = p then
          Option.some ⟨Option.some ("1.0").data, Option.some now,
            Option.some (getAllowlistEntries st.allowlist)⟩
          else Option.none) =
      (.ok true, ⟨st.allowlist, Option.none⟩) := by
  constructor
  · simp [saveAllowlist, jsOrPath, hp]
  · rw [loadAllowlist_success freshScanner p _
      ⟨Option.some ("1.0").data, Option.some now,
        Option.some (getAllowlistEntries st.allowlist)⟩
      (getAllowlistEntries st.allowlist) hp (by simp) rfl rfl]
    rw [show freshScanner.allowlist = ([] : AllowMap) from rfl,
      setAllowlistEntries_getAllowlistEntries hwf hnd]
    rfl

/-- Witness for C7 at a concrete one-entry allowlist. -/
theorem c7_save_load_roundtrip_witness :
    ((("f.json").data ≠ ([] : List Char)) ∧
      AllowMapWF [(("a@b.co").data, ⟨("a@b.co").data, Option.some PIIType.email,
        Option.some ("mine").data, 42⟩)] ∧
      (([(("a@b.co").data, ⟨("a@b.co").data, Option.some PIIType.email,
        Option.some ("mine").data, 42⟩)] : AllowMap).map Prod.fst).Nodup) ∧
    loadAllowlist freshScanner (Option.some ("f.json").data)
        (fun q => if q = ("f.json").data then
          Option.some ⟨Option.some ("1.0").data, Option.some 100,
            Option.some (getAllowlistEntries
              [(("a@b.co").data, ⟨("a@b.co").data, Option.some PIIType.email,
                Option.some ("mine").data, 42⟩)])⟩
          else Option.none) =
      (.ok true, ⟨[(("a@b.co").data, ⟨("a@b.co").data, Option.some PIIType.email,
        Option.some ("mine").data, 42⟩)], Option.none⟩) :=
  ⟨⟨by decide, by decide, by decide⟩,
    (c7_save_load_roundtrip
      ⟨[(("a@b.co").data, ⟨("a@b.co").data, Option.some PIIType.email,
        Option.some ("mine").data, 42⟩)], Option.none⟩
      ("f.json").data 100 (by decide) (by decide) (by decide)).2⟩

/-! ### Risk classification -/

/-- The risk classification exactly as the specification words it:
`none` for zero items; `high` if any item is `ssn` or `financial`; else
`medium` if any item is `address` or `dob`; else `medium` for three or more
items; else `low`. -/
def riskLevelClaim (items : List PIIItem) : RiskLevel :=
  if items.length = 0 then .none
  else if items.any (fun item => item.type == PIIType.ssn || item.type == PIIType.financial)
    then .high
  else if items.any (fun item => item.type == PIIType.address || item.type == PIIType.dob)
    then .medium
  else if 3 ≤ items.length then .medium
  else .low

/-- **C4.** `calculateRiskLevel` implements exactly the claimed
classification: `none` on empty input, `high` when an `ssn`/`financial`
item is present regardless of count, else `medium` when an `address`/`dob`
item is present, else `medium` when three or more items exist, else `low`. -/
theorem c4_risk_level (items : List PIIItem) :
    calculateRiskLevel items = riskLevelClaim items := by
  have hhigh : (items.any fun item => highRiskTypes.contains item.type) =
      (items.any fun item => item.type == PIIType.ssn || item.type == PIIType.financial) :=
    congrArg items.any (funext fun item => by cases item.type <;> rfl)
  have hmed : (items.any fun item => mediumRiskTypes.contains item.type) =
      (items.any fun item => item.type == PIIType.address || item.type == PIIType.dob) :=
    congrArg items.any (funext fun item => by cases item.type <;> rfl)
  simp only [calculateRiskLevel, riskLevelClaim, hhigh, hmed]
  by_cases h0 : items.length = 0
  · simp [h0]
  simp only [h0, if_false]
  cases hh : items.any fun item => item.type == PIIType.ssn || item.type == PIIType.financial with
  | true => simp
  | false =>
    simp only [Bool.false_eq_true, if_false]
    cases hm : items.any fun item => item.type == PIIType.address || item.type == PIIType.dob with
    | true => simp
    | false =>
      simp only [Bool.false_eq_true, if_false]
      by_cases h3 : 3 ≤ items.length
      · have hne : items ≠ [] := by
          intro hnil
          rw [hnil] at h0
          exact h0 rfl
        obtain ⟨item, hitem⟩ := List.exists_mem_of_ne_nil items hne
        have h1 := List.any_eq_false.mp hh item hitem
        have h2 := List.any_eq_false.mp hm item hitem
        have hlow : lowRiskTypes.contains item.type = true := by
          cases htype : item.type with
          | phone => rfl
          | address => rw [htype] at h2; simp at h2
          | ssn => rw [htype] at h1; simp at h1
          | email => rfl
          | dob => rw [htype] at h2; simp at h2
          | financial => rw [htype] at h1; simp at h1
        have hany : (items.any fun it => lowRiskTypes.contains it.type) = true :=
          List.any_eq_true.mpr ⟨item, hitem, hlow⟩
        rw [hany]
        simp [h3]
      · simp [h3]

/-! ### Structure of the scan loop -/

/-- Any item in the state after one loop step was either already accepted,
or is the pushed item for the current hit — and a push only happens when
the hit's value is not allowlisted. -/
theorem mem_processHit_items {allow : AllowMap} {st : ScanState} {h : RawHit}
    {i : PIIItem} (hi : i ∈ (processHit allow st h).items) :
    i ∈ st.items ∨ (i = mkItem h ∧ isAllowlisted allow h.value = false) := by
  unfold processHit at hi
  cases hg : (st.seen.contains (h.index, h.stop) || isAllowlisted allow h.value) with
  | true => rw [hg] at hi; exact Or.inl hi
  | false =>
    have hal : isAllowlisted allow h.value = false := (Bool.or_eq_false_iff.mp hg).2
    rw [hg] at hi
    simp only [Bool.false_eq_true, if_false] at hi
    cases hfind : st.items.find? (overlapB h.index h.stop) with
    | none =>
      rw [hfind] at hi
      rcases List.mem_append.mp hi with h1 | h2
      · exact Or.inl h1
      · exact Or.inr ⟨List.mem_singleton.mp h2, hal⟩
    | some overlapping =>
      rw [hfind] at hi
      dsimp only at hi
      by_cases hc : overlapping.confidence < h.confidence
      · rw [if_pos hc] at hi
        rcases List.mem_append.mp hi with h1 | h2
        · exact Or.inl (List.mem_of_mem_erase h1)
        · exact Or.inr ⟨List.mem_singleton.mp h2, hal⟩
      · rw [if_neg hc] at hi
        exact Or.inl hi

/-- Fold version of `mem_processHit_items`. -/
theorem mem_scanFold_items {allow : AllowMap} :
    ∀ (hits : List RawHit) (st : ScanState) (i : PIIItem),
      i ∈ (hits.foldl (processHit allow) st).items →
      i ∈ st.items ∨ ∃ h ∈ hits, i = mkItem h ∧ isAllowlisted allow h.value = false := by
  intro hits
  induction hits with
  | nil => intro st i hi; exact Or.inl hi
  | cons h hits ih =>
    intro st i hi
    rcases ih (processHit allow st h) i hi with hmem | ⟨h', hh', heq⟩
    · rcases mem_processHit_items hmem with h1 | h2
      · exact Or.inl h1
      · exact Or.inr ⟨h, List.mem_cons_self h hits, h2⟩
    · exact Or.inr ⟨h', List.mem_cons_of_mem _ hh', heq⟩

/-- Every item of a scan result is the pushed item of one of the raw hits,
and its value is not allowlisted. -/
theorem mem_scan_items {hits : List RawHit} {allow : AllowMap} {i : PIIItem}
    (hi : i ∈ (scan hits allow).items) :
    ∃ h ∈ hits, i = mkItem h ∧ isAllowlisted allow h.value = false := by
  unfold scan at hi
  dsimp only at hi
  have hp := (List.perm_insertionSort ascByStart
    ((hits.foldl (processHit allow) ⟨[], []⟩).items)).mem_iff.mp hi
  rcases mem_scanFold_items hits ⟨[], []⟩ i hp with h0 | hex
  · cases h0
  · exact hex

/-- **C3.** If every raw hit reports its value at its true position (the
`RegExpExecArray` contract, in the same UTF-16 code units used by
`String.prototype.slice`, so non-ASCII content does not skew offsets), then
every `DetectedItem` of the scan result satisfies
`content.slice(item.span.start, item.span.end) == item.value`. -/
theorem c3_span_correctness (content : List Char) (hits : List RawHit)
    (allow : AllowMap) (hwf : ∀ h ∈ hits, WFHit content h) :
    ∀ item ∈ (scan hits allow).items,
      sliceStr content item.position.start item.position.stop = item.value := by
  intro item hitem
  obtain ⟨h, hh, heq, -⟩ := mem_scan_items hitem
  subst heq
  exact hwf h hh

/-- Witness for C3 on non-ASCII content `"héllo☺ a@b.co"` with its email hit. -/
theorem c3_span_correctness_witness :
    (∀ h ∈ [RawHit.mk PIIType.email (sliceStr ("héllo☺ a@b.co").data 7 13) 7 95],
      WFHit ("héllo☺ a@b.co").data h) ∧
    (∀ item ∈ (scan [RawHit.mk PIIType.email (sliceStr ("héllo☺ a@b.co").data 7 13) 7 95]
        []).items,
      sliceStr ("héllo☺ a@b.co").data item.position.start item.position.stop = item.value) :=
  ⟨by decide,
    c3_span_correctness ("héllo☺ a@b.co").data
      [RawHit.mk PIIType.email (sliceStr ("héllo☺ a@b.co").data 7 13) 7 95] [] (by decide)⟩

/-- **C5.** If a value is present in the allowlist (compared
case-insensitively after trimming), no item of any scan result has a value
equal to it under that same normalization. -/
theorem c5_allowlisted_never_detected (hits : List RawHit) (allow : AllowMap)
    (v : List Char) (hv : mapHas allow (normalizeValue v) = true) :
    ∀ item ∈ (scan hits allow).items,
      normalizeValue item.value ≠ normalizeValue v := by
  intro item hitem heq
  obtain ⟨h, -, rfl, hal⟩ := mem_scan_items hitem
  rw [isAllowlisted] at hal
  rw [show (mkItem h).value = h.value from rfl] at heq
  rw [heq, hv] at hal
  cases hal

/-- Witness for C5: `"public@company.com"` allowlisted, then an email hit
with exactly that value is produced by the matcher, and the scan result
carries no item with that normalized value. -/
theorem c5_allowlisted_never_detected_witness :
    mapHas (addToAllowlist [] ("public@company.com").data Option.none Option.none 0)
      (normalizeValue ("public@company.com").data) = true ∧
    (∀ item ∈ (scan [⟨PIIType.email, ("public@company.com").data, 14, 95⟩]
        (addToAllowlist [] ("public@company.com").data Option.none Option.none 0)).items,
      normalizeValue item.value ≠ normalizeValue ("public@company.com").data) :=
  ⟨by decide,
    c5_allowlisted_never_detected
      [⟨PIIType.email, ("public@company.com").data, 14, 95⟩]
      (addToAllowlist [] ("public@company.com").data Option.none Option.none 0)
      ("public@company.com").data (by decide)⟩

/-! ### The overlap-resolution invariant -/

theorem not_mem_of_contains_eq_false {l : List (Nat × Nat)} {a : Nat × Nat}
    (h : l.contains a = false) : a ∉ l := by
  intro hmem
  have h2 : List.elem a l = true := List.elem_iff.mpr hmem
  rw [show l.contains a = List.elem a l from rfl, h2] at h
  cases h

/-- The `` `${start}-${end}` `` position key of an item (the key string is
injective on pairs of naturals, so the pair itself is the model). -/
def spanKey (i : PIIItem) : Nat × Nat := (i.position.start, i.position.stop)

/-- Invariant of the scan loop: every accepted item's position key is in
`seenPositions`, and no two accepted items carry the same position key. -/
def ScanInv (st : ScanState) : Prop :=
  (∀ i ∈ st.items, spanKey i ∈ st.seen) ∧ (st.items.map spanKey).Nodup

theorem processHit_inv (allow : AllowMap) (h : RawHit) {st : ScanState}
    (hst : ScanInv st) : ScanInv (processHit allow st h) := by
  obtain ⟨hmem, hnd⟩ := hst
  unfold processHit
  cases hg : (st.seen.contains (h.index, h.stop) || isAllowlisted allow h.value) with
  | true => exact ⟨hmem, hnd⟩
  | false =>
    simp only [Bool.false_eq_true, if_false]
    have hkey : (h.index, h.stop) ∉ st.seen :=
      not_mem_of_contains_eq_false (Bool.or_eq_false_iff.mp hg).1
    have hitems_nd : st.items.Nodup := List.Nodup.of_map spanKey hnd
    cases hfind : st.items.find? (overlapB h.index h.stop) with
    | none =>
      dsimp only
      constructor
      · intro i hi
        rcases List.mem_append.mp hi with h1 | h2
        · exact List.mem_cons_of_mem _ (hmem i h1)
        · rw [List.mem_singleton.mp h2]
          exact List.mem_cons_self _ _
      · rw [List.map_append]
        refine List.nodup_append.mpr ⟨hnd, List.nodup_singleton _, ?_⟩
        intro x hx hx2
        rw [List.map_singleton, List.mem_singleton] at hx2
        obtain ⟨i, hi, rfl⟩ := List.mem_map.mp hx
        have hs : spanKey i ∈ st.seen := hmem i hi
        rw [hx2] at hs
        exact hkey hs
    | some ov =>
      dsimp only
      by_cases hc : ov.confidence < h.confidence
      · rw [if_pos hc]
        have hov : ov ∈ st.items := List.mem_of_find?_eq_some hfind
        constructor
        · intro i hi
          rcases List.mem_append.mp hi with h1 | h2
          · have h1' := (hitems_nd.mem_erase_iff).mp h1
            have hne : spanKey i ≠ spanKey ov := fun he =>
              h1'.1 (List.inj_on_of_nodup_map hnd h1'.2 hov he)
            have hin : spanKey i ∈ st.seen.erase (ov.position.start, ov.position.stop) :=
              (List.mem_erase_of_ne hne).mpr (hmem i h1'.2)
            exact List.mem_cons_of_mem _ hin
          · rw [List.mem_singleton.mp h2]
            exact List.mem_cons_self _ _
        · rw [List.map_append]
          refine List.nodup_append.mpr
            ⟨List.Nodup.sublist (List.Sublist.map spanKey (List.erase_sublist ov st.items)) hnd,
              List.nodup_singleton _, ?_⟩
          intro x hx hx2
          rw [List.map_singleton, List.mem_singleton] at hx2
          obtain ⟨i, hi, rfl⟩ := List.mem_map.mp hx
          have hs : spanKey i ∈ st.seen := hmem i (List.mem_of_mem_erase hi)
          rw [hx2] at hs
          exact hkey hs
      · rw [if_neg hc]
        exact ⟨hmem, hnd⟩

theorem scanFold_inv (allow : AllowMap) :
    ∀ (hits : List RawHit) (st : ScanState), ScanInv st →
      ScanInv (hits.foldl (processHit allow) st) := by
  intro hits
  induction hits with
  | nil => intro st hst; exact hst
  | cons h hits ih => intro st hst; exact ih _ (processHit_inv allow h hst)

/-- **C1 (amended).** The non-overlap invariant as stated fails (see the
counterexample); what the overlap resolver does guarantee for every input
is that no two items of a scan result have IDENTICAL spans. -/
theorem c1_amended_no_duplicate_spans (hits : List RawHit) (allow : AllowMap) :
    ((scan hits allow).items.map spanKey).Nodup := by
  unfold scan
  dsimp only
  have hinv := scanFold_inv allow hits ⟨[], []⟩
    ⟨fun i hi => absurd hi (List.not_mem_nil i), List.nodup_nil⟩
  have hperm := (List.perm_insertionSort ascByStart
    ((hits.foldl (processHit allow) ⟨[], []⟩).items)).map spanKey
  exact (hperm.nodup_iff).mpr hinv.2

/-- Set-intersection test of two half-open spans: nonempty overlap
(partial overlap or containment in either direction). -/
def spansIntersect (a b : Span) : Bool :=
  decide (max a.start b.start < min a.stop b.stop)

/-- The content `"123456789.123456789@x.co"` refutes the non-overlap
invariant.  Tracing the pattern catalog over this content in order: the
phone patterns (1-5) have no match (no parentheses, dashes, `+1`, or two
dots in `ddd.ddd.dddd` shape); the dashed-SSN pattern (6) has no match; the
bare-SSN pattern (7, confidence 0.70) matches `123456789` at [0,9) and at
[10,19) (valid area/group/serial, word boundaries at the dot and the `@`);
the email pattern (8, confidence 0.95) matches the whole string at [0,24)
(digits and dots are valid local-part characters); the address, dob and
financial patterns (9-21) have no match (no street suffix, comma, slash,
month name, DOB label, card prefix at a word boundary, or account/routing
keyword).  These are the raw hits in discovery order. -/
def cexContent : List Char := ("123456789.123456789@x.co").data

/-- The three raw hits of the matching phase on `cexContent`, in discovery
order. -/
def cexHits : List RawHit :=
  [⟨PIIType.ssn, sliceStr cexContent 0 9, 0, 70⟩,
   ⟨PIIType.ssn, sliceStr cexContent 10 19, 10, 70⟩,
   ⟨PIIType.email, cexContent, 0, 95⟩]

/-- **C1 counterexample.** On `cexContent` with an empty allowlist the email
hit overlaps BOTH accepted ssn items, but the resolver evicts only the
first one it finds (lines 288-304) — the final result contains the email
item at [0,24) and the ssn item at [10,19), whose spans intersect, refuting
the claimed invariant. -/
theorem c1_counterexample :
    (cexHits.all fun h => decide (WFHit cexContent h)) = true ∧
    (scan cexHits []).items.map PIIItem.position = [⟨0, 24⟩, ⟨10, 19⟩] ∧
    spansIntersect ⟨0, 24⟩ ⟨10, 19⟩ = true := by decide

/-! ### Redaction correctness -/

/-- A span lies within the content: `0 ≤ start ≤ end ≤ content.length`. -/
def spanValid (content : List Char) (i : PIIItem) : Prop :=
  i.position.start ≤ i.position.stop ∧ i.position.stop ≤ content.length

instance (content : List Char) (i : PIIItem) : Decidable (spanValid content i) :=
  inferInstanceAs (Decidable (_ ∧ _))

/-- The source's span-overlap test (lines 288-293) on two spans: partial
overlap or containment in either direction. -/
def spanOverlapB (a b : Span) : Bool :=
  (decide (b.start ≤ a.start) && decide (a.start < b.stop))
    || (decide (b.start < a.stop) && decide (a.stop ≤ b.stop))
    || (decide (a.start ≤ b.start) && decide (b.stop ≤ a.stop))

/-- The claim-side meaning of redaction for a list of items sorted in
DESCENDING `span.start` order with pairwise disjoint, in-bounds spans: the
text strictly before each span is redacted recursively, the span itself is
replaced by its category placeholder, and all text after it is preserved
unchanged. -/
def redactSegments (content : List Char) : List PIIItem → List Char
  | [] => content
  | i :: rest =>
    redactSegments (content.take i.position.start) rest
      ++ getRedactionPlaceholder i.type
      ++ content.drop i.position.stop

/-- Two valid spans that fail the source's overlap test are strictly
ordered and disjoint. -/
theorem disjoint_of_not_overlap {a b : PIIItem}
    (hav : a.position.start ≤ a.position.stop)
    (_hbv : b.position.start ≤ b.position.stop)
    (hab : spanOverlapB a.position b.position = false) :
    (b.position.stop ≤ a.position.start ∧ b.position.start < a.position.start) ∨
    (a.position.stop ≤ b.position.start ∧ a.position.start < b.position.start) := by
  have hor := Bool.or_eq_false_iff.mp hab
  have h3 := hor.2
  have hor2 := Bool.or_eq_false_iff.mp hor.1
  have h1 := hor2.1
  have h2 := hor2.2
  rw [Bool.and_eq_false_iff] at h1 h2 h3
  simp only [decide_eq_false_iff_not, not_le, not_lt] at h1 h2 h3
  rcases h1 with h1 | h1 <;> rcases h2 with h2 | h2 <;> rcases h3 with h3 | h3 <;> omega

/-- Splicing entirely inside the prefix `A` leaves an appended suffix `B`
untouched. -/
theorem foldl_splice_append {B : List Char} :
    ∀ (L : List PIIItem) (A : List Char),
      (∀ j ∈ L, j.position.start ≤ j.position.stop ∧ j.position.stop ≤ A.length) →
      List.Pairwise (fun a b => b.position.stop ≤ a.position.start) L →
      List.foldl redactionSplice (A ++ B) L = List.foldl redactionSplice A L ++ B := by
  intro L
  induction L with
  | nil => intro A _ _; rfl
  | cons j L ih =>
    intro A hv hp
    obtain ⟨hj1, hj2⟩ := hv j (List.mem_cons_self j L)
    have hstep : redactionSplice (A ++ B) j = redactionSplice A j ++ B := by
      unfold redactionSplice
      rw [List.take_append_of_le_length (Nat.le_trans hj1 hj2),
        List.drop_append_of_le_length hj2]
      simp [List.append_assoc]
    rw [List.foldl_cons, List.foldl_cons, hstep]
    have hlen : (redactionSplice A j).length = j.position.start
        + (getRedactionPlaceholder j.type).length + (A.length - j.position.stop) := by
      unfold redactionSplice
      simp [List.length_take, List.length_drop,
        Nat.min_eq_left (Nat.le_trans hj1 hj2)]
      omega
    have hv' : ∀ k ∈ L, k.position.start ≤ k.position.stop ∧
        k.position.stop ≤ (redactionSplice A j).length := by
      intro k hk
      obtain ⟨hk1, hk2⟩ := hv k (List.mem_cons_of_mem j hk)
      have hgap := List.rel_of_pairwise_cons hp hk
      exact ⟨hk1, by rw [hlen]; omega⟩
    exact ih _ hv' (List.Pairwise.of_cons hp)

/-- For a descending-sorted list with pairwise disjoint, in-bounds spans,
the splice loop of `redact` computes exactly the segment decomposition. -/
theorem foldl_splice_eq_segments :
    ∀ (L : List PIIItem) (content : List Char),
      (∀ j ∈ L, spanValid content j) →
      List.Pairwise (fun a b => b.position.stop ≤ a.position.start) L →
      List.foldl redactionSplice content L = redactSegments content L := by
  intro L
  induction L with
  | nil => intro content _ _; rfl
  | cons i L ih =>
    intro content hv hp
    obtain ⟨hi1, hi2⟩ := hv i (List.mem_cons_self i L)
    have hslen : (content.take i.position.start).length = i.position.start :=
      List.length_take_of_le (Nat.le_trans hi1 hi2)
    have hv' : ∀ k ∈ L, k.position.start ≤ k.position.stop ∧
        k.position.stop ≤ (content.take i.position.start).length := by
      intro k hk
      obtain ⟨hk1, _⟩ := hv k (List.mem_cons_of_mem i hk)
      have hgap := List.rel_of_pairwise_cons hp hk
      exact ⟨hk1, by rw [hslen]; exact Nat.le_trans hgap (Nat.le_refl _)⟩
    have hstep : redactionSplice content i =
        content.take i.position.start
          ++ (getRedactionPlaceholder i.type ++ content.drop i.position.stop) := by
      unfold redactionSplice
      rw [List.append_assoc]
    rw [List.foldl_cons, hstep,
      foldl_splice_append L (content.take i.position.start) hv' (List.Pairwise.of_cons hp)]
    have hvtake : ∀ k ∈ L, spanValid (content.take i.position.start) k := by
      intro k hk
      obtain ⟨hk1, hk2⟩ := hv' k hk
      exact ⟨hk1, hk2⟩
    rw [ih (content.take i.position.start) hvtake (List.Pairwise.of_cons hp)]
    rw [redactSegments]
    rw [List.append_assoc]

/-- Sortedness by descending start plus pairwise non-overlap yields the
gap shape needed by the splice loop. -/
theorem pairwise_gap_of_sorted_nonoverlap {l : List PIIItem}
    (hval : ∀ i ∈ l, i.position.start ≤ i.position.stop)
    (hs : List.Sorted descByStart l)
    (hno : l.Pairwise (fun a b => spanOverlapB a.position b.position = false ∧
      spanOverlapB b.position a.position = false)) :
    l.Pairwise (fun a b => b.position.stop ≤ a.position.start) := by
  have hcomb := List.Pairwise.and hs hno
  refine hcomb.imp_of_mem ?_
  intro a b ha hb hr
  obtain ⟨hdesc, hab, -⟩ := hr
  rcases disjoint_of_not_overlap (hval a ha) (hval b hb) hab with ⟨hd, -⟩ | ⟨-, hlt⟩
  · exact hd
  · exact absurd hdesc (Nat.not_le_of_lt hlt)

/-- **C2.** For every content and every list of `DetectedItem`s whose spans
are pairwise non-overlapping (under the source's own overlap test, in both
directions) and valid for that content, `redact` replaces exactly each
item's span with the fixed placeholder of its category and leaves every
character outside the matched spans unchanged (the segment decomposition
along the items in descending start order); in particular
`redact(content, []) == content` for all content. -/
theorem c2_redact_replaces_spans (content : List Char) (piiItems : List PIIItem)
    (hval : ∀ i ∈ piiItems, spanValid content i)
    (hno : piiItems.Pairwise (fun a b => spanOverlapB a.position b.position = false ∧
      spanOverlapB b.position a.position = false)) :
    redact content piiItems = redactSegments content (sortByStartDesc piiItems) ∧
    redact content [] = content := by
  refine ⟨?_, rfl⟩
  unfold redact
  by_cases h0 : piiItems.length = 0
  · have hnil : piiItems = [] := List.length_eq_zero.mp h0
    subst hnil
    simp only [h0, if_pos]
    rfl
  · rw [if_neg h0]
    have hperm : (sortByStartDesc piiItems).Perm piiItems :=
      List.perm_insertionSort descByStart piiItems
    have hsort : List.Sorted descByStart (sortByStartDesc piiItems) :=
      List.sorted_insertionSort descByStart piiItems
    have hsymm : ∀ {x y : PIIItem},
        (spanOverlapB x.position y.position = false ∧
          spanOverlapB y.position x.position = false) →
        (spanOverlapB y.position x.position = false ∧
          spanOverlapB x.position y.position = false) :=
      fun hxy => ⟨hxy.2, hxy.1⟩
    have hno' := (hperm.pairwise_iff hsymm).mpr hno
    have hval' : ∀ i ∈ sortByStartDesc piiItems, spanValid content i :=
      fun i hi => hval i (hperm.mem_iff.mp hi)
    have hgap := pairwise_gap_of_sorted_nonoverlap
      (fun i hi => (hval' i hi).1) hsort hno'
    exact foldl_splice_eq_segments _ content hval' hgap

/-- Witness for C2 on the scenario `scan("SSN: 123-45-6789")`: one ssn item
at `[5,16)`; redaction yields `"SSN: [SSN REDACTED]"`. -/
theorem c2_redact_replaces_spans_witness :
    ((∀ i ∈ [PIIItem.mk PIIType.ssn (sliceStr ("SSN: 123-45-6789").data 5 16) ⟨5, 16⟩ 95],
        spanValid ("SSN: 123-45-6789").data i) ∧
      List.Pairwise (fun a b => spanOverlapB a.position b.position = false ∧
          spanOverlapB b.position a.position = false)
        [PIIItem.mk PIIType.ssn (sliceStr ("SSN: 123-45-6789").data 5 16) ⟨5, 16⟩ 95]) ∧
    redact ("SSN: 123-45-6789").data
        [PIIItem.mk PIIType.ssn (sliceStr ("SSN: 123-45-6789").data 5 16) ⟨5, 16⟩ 95] =
      redactSegments ("SSN: 123-45-6789").data
        (sortByStartDesc
          [PIIItem.mk PIIType.ssn (sliceStr ("SSN: 123-45-6789").data 5 16) ⟨5, 16⟩ 95]) ∧
    redact ("SSN: 123-45-6789").data
        [PIIItem.mk PIIType.ssn (sliceStr ("SSN: 123-45-6789").data 5 16) ⟨5, 16⟩ 95] =
      ("SSN: [SSN REDACTED]").data :=
  ⟨⟨by decide, by decide⟩,
    (c2_redact_replaces_spans ("SSN: 123-45-6789").data
      [PIIItem.mk PIIType.ssn (sliceStr ("SSN: 123-45-6789").data 5 16) ⟨5, 16⟩ 95]
      (by decide) (by decide)).1,
    by decide⟩

/-! ### `redact` does not mutate its argument -/

theorem set_concat_length {α : Type} (A : List α) (x y : α) :
    (A ++ [x]).set A.length y = A ++ [y] := by
  induction A with
  | nil => rfl
  | cons a A ih =>
    simp only [List.cons_append, List.length_cons, List.set_cons_succ, ih]

theorem readArr_concat (h : ArrayHeap) (xs : List PIIItem) :
    readArr ⟨h.arrays ++ [xs]⟩ h.arrays.length = xs := by
  unfold readArr List.getD
  rw [List.get?_concat_length]
  rfl

/-- **C9.** At the reference level, `redact` leaves the caller's `piiItems`
array exactly as it was (the sort mutates only the spread-copy), and
returns the same string as the pure function. -/
theorem c9_redact_preserves_argument (h : ArrayHeap) (content : List Char)
    (r : Nat) (hr : r < h.arrays.length) :
    readArr (redactImp h content r).1 r = readArr h r ∧
    (redactImp h content r).2 = redact content (readArr h r) := by
  by_cases h0 : (readArr h r).length = 0
  · simp only [redactImp]
    rw [if_pos h0]
    refine ⟨rfl, ?_⟩
    unfold redact
    rw [if_pos h0]
  · simp only [redactImp]
    rw [if_neg h0]
    dsimp only [allocArr, writeArr]
    rw [readArr_concat, set_concat_length, readArr_concat]
    constructor
    · show readArr ⟨h.arrays ++ [sortByStartDesc (readArr h r)]⟩ r = readArr h r
      unfold readArr List.getD
      dsimp only
      rw [List.get?_append hr]
    · unfold redact
      rw [if_neg h0]

/-- Witness for C9 at a concrete one-array heap. -/
theorem c9_redact_preserves_argument_witness :
    0 < (ArrayHeap.mk [[PIIItem.mk PIIType.phone (("555-123-4567").data) ⟨0, 12⟩ 90]]).arrays.length ∧
    readArr (redactImp (ArrayHeap.mk [[PIIItem.mk PIIType.phone (("555-123-4567").data) ⟨0, 12⟩ 90]])
      (("555-123-4567").data) 0).1 0 =
      readArr (ArrayHeap.mk [[PIIItem.mk PIIType.phone (("555-123-4567").data) ⟨0, 12⟩ 90]]) 0 :=
  ⟨by decide,
    (c9_redact_preserves_argument
      (ArrayHeap.mk [[PIIItem.mk PIIType.phone (("555-123-4567").data) ⟨0, 12⟩ 90]])
      (("555-123-4567").data) 0 (by decide)).1⟩

end PII
